import Mathlib

/-!
Verification of the webmessage chain model against its specification.

Shallow embedding conventions:
* Bytes are `Nat`, byte strings are `List Nat`, `MessageHash` is a 32-byte
  `List Nat` in the real system (modelled as `List Nat`).
* The SHA-256 primitive, the Schnorr verifier and the Schnorr signer are
  external collaborators (spec §1, §6); they are passed in as explicit
  function parameters `sha`, `verif`, `signFn`.
* `Identity` is its canonical byte view (the bytes of the public-key JSON
  text, `Identity::as_ref` in `src/account.rs`); two identities are equal
  iff their byte views are equal, matching `PartialEq for Identity`.
* `Signature` is its canonical byte view (`Signature::as_ref`).
* The browser key-value store is modelled per typed key: the keys
  `"msg_<group>_<hex(hash)>"`, `"latest_msghash_<group>"`, `"groups"`,
  `"accs"`, `"accidx"` are pairwise distinct (the hex rendering always
  starts with `[`, so no two distinct (group, hash) pairs or groups share
  a key), so the flat string map splits into the fields of `Storage`.
  The typed `get` collapses both a missing key and an unparseable value
  to `None` (`SerdeLocalStore::get` in `src/store/mod.rs`), so `accidx`
  is an `Option Nat` where `none` covers both.
-/

namespace WebMessage

/-- MessageHash is a 32-byte value; modelled as a list of bytes. -/
abbrev Hash := List Nat

/-- The all-zero sentinel hash `[0u8; 32]`. -/
def ZERO_HASH : Hash := List.replicate 32 0

/-- Abstract SHA-256: a function from byte strings to hashes. -/
abbrev ShaFn := List Nat → Hash

/-- Abstract signature verification: signature bytes, identity bytes,
message-hash bytes to Bool (`Signature::verify` delegates to Schnorr). -/
abbrev VerifFn := List Nat → List Nat → Hash → Bool

/-- Message from `src/core/message.rs`: previous hash plus payload. -/
structure Message where
  previous_hash : Hash
  data : List Nat
deriving DecidableEq

/-- SignedMessage from `src/core/message.rs`. -/
structure SignedMessage where
  message : Message
  id : List Nat
  seq : Nat
  signature : List Nat
deriving DecidableEq

/-- Abstract signing primitive (`MessageSigner::sign` in `src/message.rs`):
identity bytes, secret bytes, message to signature bytes. -/
abbrev SignFn := List Nat → List Nat → Message → List Nat

/-- Rust `u32::to_le_bytes` on the stored sequence number, as the code uses
it in `SignedMessage::hash` (`self.seq.to_le_bytes()`). -/
def seq_le_bytes (n : Nat) : List Nat :=
  [n % 256, (n >>> 8) % 256, (n >>> 16) % 256, (n >>> 24) % 256]

/-- Modelled from the spec: `LE32`, "the 4-byte little-endian encoding of a
32-bit unsigned integer" (spec §3). -/
def le32_spec (n : Nat) : List Nat :=
  [n % 256, n / 256 % 256, n / 65536 % 256, n / 16777216 % 256]

/-- Message::to_hash (`src/core/message.rs` lines 35-42): hash of
`previous_hash ‖ data`. -/
def Message.to_hash (sha : ShaFn) (m : Message) : Hash :=
  sha (m.previous_hash ++ m.data)

/-- Modelled from the spec: `H_msg(m) := SHA256(m.previous_hash ‖ m.data)`
(spec §3). -/
def H_msg_spec (sha : ShaFn) (m : Message) : Hash :=
  sha (m.previous_hash ++ m.data)

/-- SignedMessage::hash (`src/core/message.rs` lines 112-127): hash of
`message.data ‖ id ‖ seq.to_le_bytes() ‖ signature`. -/
def SignedMessage.hash (sha : ShaFn) (sm : SignedMessage) : Hash :=
  sha (sm.message.data ++ sm.id ++ seq_le_bytes sm.seq ++ sm.signature)

/-- Modelled from the spec: `H_sig(sm) := SHA256(sm.message.data ‖
sm.id.bytes ‖ LE32(sm.seq) ‖ sm.signature.bytes)` (spec §3). -/
def H_sig_spec (sha : ShaFn) (sm : SignedMessage) : Hash :=
  sha (sm.message.data ++ sm.id ++ le32_spec sm.seq ++ sm.signature)

/-- SignedMessage::verify (`src/core/message.rs` lines 104-108): verify the
signature under the signer's identity over the hash of the inner message. -/
def SignedMessage.verify (sha : ShaFn) (verif : VerifFn) (sm : SignedMessage) : Bool :=
  verif sm.signature sm.id (sm.message.to_hash sha)

/-- SignedMessage::is_valid_parent_of (`src/core/message.rs` lines 131-135):
`self.hash() == other.message.previous_hash && self.seq + 1 == other.seq
&& other.verify()`. -/
def SignedMessage.is_valid_parent_of (sha : ShaFn) (verif : VerifFn)
    (p c : SignedMessage) : Bool :=
  (p.hash sha == c.message.previous_hash) && (p.seq + 1 == c.seq)
    && c.verify sha verif

/-- SignedMessage::is_first_message (`src/core/message.rs` lines 138-140). -/
def SignedMessage.is_first_message (sm : SignedMessage) : Bool :=
  (sm.seq == 0) && (sm.message.previous_hash == ZERO_HASH)

/-- SignedMessage::new_first_message (`src/core/message.rs` lines 68-81):
root message with zero previous hash, sequence 0, freshly signed. -/
def new_first_message (signFn : SignFn) (id secret : List Nat)
    (data : List Nat) : SignedMessage :=
  let message : Message := { previous_hash := ZERO_HASH, data := data }
  { message := message, id := id, seq := 0, signature := signFn id secret message }

/-- SignedMessage::new_from_previous_message (`src/core/message.rs` lines
84-102): child with the given previous hash and sequence `prev.seq + 1`. -/
def new_from_previous_message (signFn : SignFn) (id secret : List Nat)
    (data : List Nat) (hash : Hash) (signed_message : SignedMessage) : SignedMessage :=
  let message : Message := { previous_hash := hash, data := data }
  { message := message, id := id, seq := signed_message.seq + 1,
    signature := signFn id secret message }

/-! ### The key-value store -/

/-- Lookup of the first binding of a key in an association list, modelling
`localStorage.get_item` on the typed keyspace. -/
def storeGet {α β : Type} [DecidableEq α] : List (α × β) → α → Option β
  | [], _ => none
  | e :: rest, k => if e.1 = k then some e.2 else storeGet rest k

/-- Overwrite of a key in an association list (replace the first binding,
or append), modelling `localStorage.set_item`. -/
def storePut {α β : Type} [DecidableEq α] : List (α × β) → α → β → List (α × β)
  | [], k, v => [(k, v)]
  | e :: rest, k, v => if e.1 = k then (k, v) :: rest else e :: storePut rest k v

/-- Rust `iter().enumerate().find_map(|(idx, x)| p(x).then_some(idx))`:
index of the first element satisfying the predicate. -/
def find_index {α : Type} (p : α → Bool) : List α → Option Nat
  | [] => none
  | a :: rest => if p a then some 0 else (find_index p rest).map (· + 1)

/-- Group from `src/core/group.rs`: id plus first-seen unix timestamp.
Rust equality (`PartialEq for Group`) is on `id` alone; the store's
`contains` check is modelled below with an explicit id comparison. -/
structure Group where
  id : String
  timestamp : Nat
deriving DecidableEq

/-- The whole persisted state. Message entries are keyed by
`(group_id, hash)` (key `"msg_<group>_<hex(hash)>"`), tip pointers by
group (key `"latest_msghash_<group>"`), the group list, account list and
current-account index live under their own fixed keys. Accounts are
`(identity bytes, secret bytes)` pairs as pushed by
`AccountStore::new_account`. -/
structure Storage where
  msgs : List ((String × Hash) × SignedMessage)
  latest : List (String × Hash)
  groups : List Group
  accounts : List (List Nat × List Nat)
  accidx : Option Nat
deriving DecidableEq

/-- Empty browser storage. -/
def emptyStorage : Storage := ⟨[], [], [], [], none⟩

/-! ### SignedMessageStore (`src/store/message.rs`) -/

/-- SignedMessageStore::message: value at key `msg_<g>_<hex(h)>`. -/
def msgGet (s : Storage) (g : String) (h : Hash) : Option SignedMessage :=
  storeGet s.msgs (g, h)

/-- SignedMessageStore::latest_message_hash: value at `latest_msghash_<g>`. -/
def latest_message_hash (s : Storage) (g : String) : Option Hash :=
  storeGet s.latest g

/-- SignedMessageStore::latest_message: join the tip pointer with the
message lookup. -/
def latest_message (s : Storage) (g : String) : Option (Hash × SignedMessage) :=
  (latest_message_hash s g).bind fun h => (msgGet s g h).map fun m => (h, m)

/-- SignedMessageStore::save_message (`src/store/message.rs` lines 82-95):
store the message under its hash, then overwrite the tip pointer; returns
the hash. -/
def save_message (sha : ShaFn) (g : String) (m : SignedMessage) (s : Storage) :
    Hash × Storage :=
  let h := m.hash sha
  let s₁ := { s with msgs := storePut s.msgs (g, h) m }
  let s₂ := { s₁ with latest := storePut s₁.latest g h }
  (h, s₂)

/-! ### GroupStore (`src/store/group.rs`) -/

/-- GroupStore::add_group: append iff no stored group has the same id
(Rust `contains` uses the id-only `PartialEq`). -/
def add_group (gr : Group) (s : Storage) : Storage :=
  if s.groups.any (fun g' => g'.id = gr.id) then s
  else { s with groups := s.groups ++ [gr] }

/-! ### AccountStore (`src/store/account.rs`) -/

/-- AccountStore::current_index (lines 78-80): stored index, defaulting to
0 when the key is absent or unparseable (`unwrap_or_default`). -/
def current_index (s : Storage) : Nat := s.accidx.getD 0

/-- AccountStore::current_account (lines 59-63): `accounts.get(idx)`. -/
def current_account (s : Storage) : Option (List Nat × List Nat) :=
  s.accounts.get? (current_index s)

/-- AccountStore::new_account (lines 26-34): generate a keypair (supplied
here as the oracle `gen = (private_key, public_key)`), set the current
index to the pre-push length, push `(public, private)`, and return
`(public, private)`. -/
def new_account (gen : List Nat × List Nat) (s : Storage) :
    (List Nat × List Nat) × Storage :=
  let idx := s.accounts.length
  ((gen.2, gen.1),
   { s with accidx := some idx, accounts := s.accounts ++ [(gen.2, gen.1)] })

/-- AccountStore::initialize (lines 19-23): return the current account if
there is one, else create a new account. -/
def accInit (gen : List Nat × List Nat) (s : Storage) :
    (List Nat × List Nat) × Storage :=
  match current_account s with
  | some p => (p, s)
  | none => new_account gen s

/-- AccountStore::set_current_account (lines 66-76): first index whose
identity equals the argument; set the index if found, else no-op. -/
def set_current_account (identity : List Nat) (s : Storage) : Storage :=
  match find_index (fun p => p.1 = identity) s.accounts with
  | none => s
  | some idx => { s with accidx := some idx }

/-- AccountStore::delete_account (lines 37-56): remove the first account
with the given identity, then adjust the current index. -/
def delete_account (identity : List Nat) (s : Storage) : Storage :=
  match find_index (fun p => p.1 = identity) s.accounts with
  | none => s
  | some idx =>
    let s₁ := { s with accounts := s.accounts.eraseIdx idx }
    let ci := current_index s₁
    if ci = idx then { s₁ with accidx := some (ci - 1) }
    else if ci > idx then { s₁ with accidx := some (ci - 1) }
    else s₁

/-- Identity::try_from for text (`src/account.rs` lines 38-45): always
succeeds, wrapping the given text (byte view) unchanged. -/
def identity_try_from (value : List Nat) : Except Unit (List Nat) :=
  Except.ok value

/-! ### Writer (`src/writer.rs`) -/

/-- Writer::write (lines 23-35): save the message, register the group
(with the current time `ts`), return the hash and the message. -/
def writer_write (sha : ShaFn) (g : String) (sm : SignedMessage) (ts : Nat)
    (s : Storage) : (Hash × SignedMessage) × Storage :=
  let p := save_message sha g sm s
  ((p.1, sm), add_group ⟨g, ts⟩ p.2)

/-- Expected (previous hash, sequence) for admission into a group:
`latest_message(group_id).map(|(hash, msg)| (hash, msg.seq + 1))
.unwrap_or(([0u8; 32], 0))` (`src/writer.rs` lines 51-55, also spec §4.6
step 2). -/
def expected_pair (s : Storage) (g : String) : Hash × Nat :=
  match latest_message s g with
  | some (h, m) => (h, m.seq + 1)
  | none => (ZERO_HASH, 0)

/-- Writer::write_with_validation (lines 40-65): check the signature, the
expected sequence and the expected previous hash, in that order, before
writing anything; on failure return the error with storage untouched. -/
def write_with_validation (sha : ShaFn) (verif : VerifFn) (g : String)
    (sm : SignedMessage) (ts : Nat) (s : Storage) :
    Except String (Hash × SignedMessage) × Storage :=
  if ¬ sm.verify sha verif then (Except.error "fail to validate message", s)
  else
    let ep := expected_pair s g
    if sm.seq ≠ ep.2 then (Except.error "wrong message sequence", s)
    else if sm.message.previous_hash ≠ ep.1 then (Except.error "wrong previous hash", s)
    else
      let r := writer_write sha g sm ts s
      (Except.ok r.1, r.2)

/-! ### Signer (`src/signer.rs`) -/

/-- Signer::sign (lines 21-42): read the current account (the Rust code
unwraps; `none` models the panic, which happens before any write), then
build a root or child depending on the stored tip. -/
def signer_sign (signFn : SignFn) (g : String) (data : List Nat)
    (s : Storage) : Option SignedMessage :=
  (current_account s).map fun p =>
    match latest_message s g with
    | some (h, prev) => new_from_previous_message signFn p.1 p.2 data h prev
    | none => new_first_message signFn p.1 p.2 data

/-! ### Chain validation -/

/-- Loop of SignedMessageStore::validate_messages (`src/store/message.rs`
lines 120-132). The Rust `while let` has no syntactic bound; it is modelled
with explicit fuel, returning `none` when the fuel runs out. A terminating
run of the Rust loop never visits the same key twice (a revisited key
yields the same stored message and the loop is deterministic, so a revisit
is a forever-cycle), hence visits at most one stored entry per binding;
calling with fuel `s.msgs.length + 1` therefore returns `some` of the Rust
result exactly when the Rust loop terminates. `seq - 1` on `Nat` is
`u32::saturating_sub(1)`. -/
def validateWalk (sha : ShaFn) (verif : VerifFn)
    (lk : Hash → Option SignedMessage) :
    Nat → Hash → Nat → Option Bool
  | 0, _, _ => none
  | fuel + 1, latest_hash, seq =>
    match lk latest_hash with
    | none => some ((latest_hash == ZERO_HASH) && (seq == 0))
    | some m =>
      if m.seq ≠ seq ∨ m.hash sha ≠ latest_hash then some false
      else if ¬ m.verify sha verif then some false
      else validateWalk sha verif lk fuel m.message.previous_hash (seq - 1)

/-- SignedMessageStore::validate_messages (`src/store/message.rs` lines
113-133): `some b` when the Rust function terminates with `b`, `none` when
the Rust loop would not terminate (possible only on a cyclic store). -/
def validate_messages (sha : ShaFn) (verif : VerifFn) (s : Storage)
    (g : String) : Option Bool :=
  match latest_message s g with
  | none => some true
  | some (h, m) =>
    validateWalk sha verif (fun h' => msgGet s g h') (s.msgs.length + 1) h m.seq

/-- Modelled from the spec: the walk of the `verify_all` algorithm of
§4.4 steps 3-4 (this algorithm is the spec's description of
`validate_messages`; it is not present verbatim in the source). While a
parent is stored under `cur.message.previous_hash`, require
`is_valid_parent_of(parent, cur)` and step to the parent; when no parent
is stored return `is_root(cur)`. Each successful step has
`parent.seq + 1 = cur.seq`, so starting the fuel at `cur.seq + 1` the
fuel-0 branch is unreachable (when `cur.seq = 0` and a parent is stored,
`is_valid_parent_of` demands `parent.seq + 1 = 0`, which fails). -/
def verifyAllWalk (sha : ShaFn) (verif : VerifFn)
    (lk : Hash → Option SignedMessage) : Nat → SignedMessage → Bool
  | 0, cur => cur.is_first_message
  | fuel + 1, cur =>
    match lk cur.message.previous_hash with
    | none => cur.is_first_message
    | some parent =>
      SignedMessage.is_valid_parent_of sha verif parent cur
        && verifyAllWalk sha verif lk fuel parent

/-- Modelled from the spec: the `verify_all` algorithm of §4.4: an empty
chain is valid; otherwise the tip's signature must verify and the walk
must end at a root. -/
def verifyAllSpec (sha : ShaFn) (verif : VerifFn) (s : Storage) (g : String) : Bool :=
  match latest_message s g with
  | none => true
  | some (_, tip) =>
    tip.verify sha verif
      && verifyAllWalk sha verif (fun h' => msgGet s g h') (tip.seq + 1) tip

/-! ### Host-facing facade (`src/lib.rs`) -/

/-- One facade call, with the oracle data the call consumes: generated
keypairs for account creation, the wall-clock timestamp for group
registration, the payload bytes for signing, and the parsed foreign
message for ingestion. -/
inductive Op where
  | initAccount (gen : List Nat × List Nat)
  | newAccount (gen : List Nat × List Nat)
  | setCurrentAccount (idText : List Nat)
  | deleteAccount (idText : List Nat)
  | signMessage (g : String) (data : List Nat) (ts : Nat)
  | addSignedMessage (g : String) (sm : SignedMessage) (ts : Nat)

/-- Effect of one facade call on storage (`src/lib.rs`). `setCurrentAccount`
and `deleteAccount` parse the identity text with `Identity::try_from`,
which always succeeds and keeps the text unchanged. A `signMessage` call
with no current account panics inside `Signer::sign` before any write, so
it leaves storage unchanged. An `addSignedMessage` whose message fails
validation returns the error with storage unchanged. -/
def applyOp (sha : ShaFn) (verif : VerifFn) (signFn : SignFn) :
    Op → Storage → Storage
  | Op.initAccount gen, s => (accInit gen s).2
  | Op.newAccount gen, s => (new_account gen s).2
  | Op.setCurrentAccount t, s => set_current_account t s
  | Op.deleteAccount t, s => delete_account t s
  | Op.signMessage g data ts, s =>
    match signer_sign signFn g data s with
    | none => s
    | some sm => (writer_write sha g sm ts s).2
  | Op.addSignedMessage g sm ts, s => (write_with_validation sha verif g sm ts s).2

/-- Messages a facade call brings into play: the message `signMessage`
constructs, or the foreign message handed to `addSignedMessage` (whether
or not it is admitted). -/
def opMsgs (signFn : SignFn) : Op → Storage → List SignedMessage
  | Op.signMessage g data _, s =>
    match signer_sign signFn g data s with
    | none => []
    | some sm => [sm]
  | Op.addSignedMessage _ sm _, _ => [sm]
  | _, _ => []

/-- Run a list of facade calls, accumulating the log of messages brought
into play. -/
def runC (sha : ShaFn) (verif : VerifFn) (signFn : SignFn) :
    List Op → Storage × List SignedMessage → Storage × List SignedMessage
  | [], p => p
  | op :: rest, p =>
    runC sha verif signFn rest (applyOp sha verif signFn op p.1, p.2 ++ opMsgs signFn op p.1)

/-! ### The chain-shape invariant (claim C3's property) -/

/-- Walk of the per-group store from a hash, collecting stored messages
while following `previous_hash`, with fuel. -/
def collectWalk (lk : Hash → Option SignedMessage) : Nat → Hash → List SignedMessage
  | 0, _ => []
  | fuel + 1, h =>
    match lk h with
    | none => []
    | some m => m :: collectWalk lk fuel m.message.previous_hash

/-- Chain invariants of a group, as claim C3 states them, decidably: if
the chain is non-empty then walking `previous_hash` from `latest_hash(g)`
traverses exactly `tip.seq + 1` stored messages, the deepest one pointing
at `ZERO_HASH`; every adjacent (parent, child) pair satisfies
`is_valid_parent_of`; and the stored latest hash equals `H_sig(tip)`. -/
def chainInvB (sha : ShaFn) (verif : VerifFn) (s : Storage) (g : String) : Bool :=
  match latest_message s g with
  | none => true
  | some (h, tip) =>
    let c := collectWalk (fun h' => msgGet s g h') (tip.seq + 1) h
    (c.length == tip.seq + 1)
      && ((c.getLast?).elim false fun last => last.message.previous_hash == ZERO_HASH)
      && ((c.zip c.tail).all fun q => SignedMessage.is_valid_parent_of sha verif q.2 q.1)
      && (h == tip.hash sha)

/-- A tip-first list of messages forming a stored, linked, signed chain
under the lookup `lk`: sequence numbers descend by one to 0, each message
is stored under its own hash, each links to the next by `previous_hash`,
the deepest links to `ZERO_HASH`, and every signature verifies. -/
def chainLinked (sha : ShaFn) (verif : VerifFn)
    (lk : Hash → Option SignedMessage) : List SignedMessage → Prop
  | [] => True
  | [m] =>
    m.seq = 0 ∧ m.message.previous_hash = ZERO_HASH ∧
      lk (m.hash sha) = some m ∧ m.verify sha verif = true
  | m :: m' :: rest =>
    m.seq = m'.seq + 1 ∧ m.message.previous_hash = m'.hash sha ∧
      lk (m.hash sha) = some m ∧ m.verify sha verif = true ∧
      chainLinked sha verif lk (m' :: rest)

/-- The full per-group invariant carried through the reachability proof:
a non-empty tip-first chain, pointed at by the stored latest hash, linked
and stored as `chainLinked` demands, with pairwise distinct hashes none of
which is the zero sentinel. -/
def goodChain (sha : ShaFn) (verif : VerifFn) (s : Storage) (g : String)
    (c : List SignedMessage) : Prop :=
  c ≠ [] ∧
  latest_message_hash s g = c.head?.map (fun m => m.hash sha) ∧
  chainLinked sha verif (fun h => msgGet s g h) c ∧
  (c.map (fun m => m.hash sha)).Nodup ∧
  ∀ m ∈ c, m.hash sha ≠ ZERO_HASH

/-- Global invariant: every group either has no tip pointer or carries a
good chain all of whose messages appear in the log of messages brought
into play so far. -/
def Inv (sha : ShaFn) (verif : VerifFn) (s : Storage)
    (log : List SignedMessage) : Prop :=
  ∀ g, latest_message_hash s g = none ∨
    ∃ c, goodChain sha verif s g c ∧ ∀ m ∈ c, m ∈ log

/-- Concrete tip used in the C1 failing input: sequence number 1 but a
zero previous hash, so it is not a root yet claims one predecessor. -/
def c1Tip : SignedMessage := ⟨⟨ZERO_HASH, []⟩, [7], 1, []⟩

/-- Hash oracle for the C1 failing input: every byte string hashes to the
all-ones hash, so the stored tip hashes to its key. -/
def c1Sha : ShaFn := fun _ => List.replicate 32 1

/-- Verifier for the C1 failing input: every signature verifies. -/
def c1Verif : VerifFn := fun _ _ _ => true

/-- The C1 failing input: group "g" stores only `c1Tip`, under the hash
the tip pointer holds, which is the tip's own hash. -/
def c1State : Storage :=
  ⟨[(("g", List.replicate 32 1), c1Tip)], [("g", List.replicate 32 1)], [], [], none⟩

/-- Account-registry state for the C5 counterexample: one account but a
stored current index pointing past the end of the list. -/
def c5State : Storage := ⟨[], [], [], [([1], [2])], some 5⟩

/-! ## Theorems -/

theorem storeGet_storePut_self {α β : Type} [DecidableEq α]
    (l : List (α × β)) (k : α) (v : β) : storeGet (storePut l k v) k = some v := by
  induction l with
  | nil => simp [storePut, storeGet]
  | cons e rest ih =>
    by_cases h : e.1 = k
    · simp [storePut, storeGet, h]
    · simp [storePut, storeGet, h, ih]

theorem storeGet_storePut_ne {α β : Type} [DecidableEq α]
    (l : List (α × β)) (k k' : α) (v : β) (h : k' ≠ k) :
    storeGet (storePut l k v) k' = storeGet l k' := by
  have hne : ¬ k = k' := fun h' => h h'.symm
  induction l with
  | nil => simp [storePut, storeGet, hne]
  | cons e rest ih =>
    by_cases he : e.1 = k
    · simp [storePut, storeGet, he, hne]
    · by_cases he' : e.1 = k'
      · simp [storePut, storeGet, he, he', h]
      · simp [storePut, storeGet, he, he', ih]

theorem storePut_storePut_self {α β : Type} [DecidableEq α]
    (l : List (α × β)) (k : α) (v : β) :
    storePut (storePut l k v) k v = storePut l k v := by
  induction l with
  | nil => simp [storePut]
  | cons e rest ih =>
    by_cases h : e.1 = k
    · simp [storePut, h]
    · simp [storePut, h, ih]

theorem seq_le_bytes_eq_le32_spec (n : Nat) : seq_le_bytes n = le32_spec n := by
  simp [seq_le_bytes, le32_spec, Nat.shiftRight_eq_div_pow]

/-- C4: the two canonical hashes are computed with the specified field order
and byte layout: `Message::to_hash` is `SHA256(previous_hash ‖ data)` and
`SignedMessage::hash` is `SHA256(data ‖ id ‖ LE32(seq) ‖ signature)` with
`LE32` the 4-byte little-endian encoding of the sequence number. -/
theorem to_hash_and_hash_match_spec (sha : ShaFn) (m : Message) (sm : SignedMessage) :
    m.to_hash sha = H_msg_spec sha m ∧ sm.hash sha = H_sig_spec sha sm := by
  constructor
  · rfl
  · simp [SignedMessage.hash, H_sig_spec, seq_le_bytes_eq_le32_spec]

/-- C9: when the current-account-index key is absent (or its value fails to
parse, which the typed store also surfaces as absence), `current_index`
returns 0, so with a non-empty account list `current_account` is the first
account, and with an empty list it is `none` rather than a failure. -/
theorem current_index_defaults_to_zero (s : Storage) (h : s.accidx = none) :
    current_index s = 0 ∧
    (∀ a rest, s.accounts = a :: rest → current_account s = some a) ∧
    (s.accounts = [] → current_account s = none) := by
  refine ⟨by simp [current_index, h], ?_, ?_⟩
  · intro a rest ha
    simp [current_account, current_index, h, ha]
  · intro ha
    simp [current_account, current_index, h, ha]

theorem current_index_defaults_to_zero_witness :
    current_index ⟨[], [], [], [([1], [2])], none⟩ = 0 ∧
    current_account ⟨[], [], [], [([1], [2])], none⟩ = some ([1], [2]) := by
  have h := current_index_defaults_to_zero ⟨[], [], [], [([1], [2])], none⟩ rfl
  exact ⟨h.1, h.2.1 ([1], [2]) [] rfl⟩

theorem find_index_none {α : Type} (p : α → Bool) :
    ∀ l : List α, (∀ a ∈ l, p a = false) → find_index p l = none := by
  intro l
  induction l with
  | nil => intro _; rfl
  | cons a rest ih =>
    intro h
    have ha := h a (List.mem_cons_self a rest)
    have hr := ih (fun x hx => h x (List.mem_cons_of_mem a hx))
    simp [find_index, ha, hr]

/-- C10: parsing an identity from text always succeeds (so the facade's
unwrap after `Identity::try_from` is unreachable and `setCurrentAccount` /
`deleteAccount` are total), and when no stored account's identity equals
the given text the registry is left unchanged by both operations. -/
theorem identity_parse_total_and_unknown_identity_noop (t : List Nat) (s : Storage)
    (h : ∀ p ∈ s.accounts, p.1 ≠ t) :
    identity_try_from t = Except.ok t ∧
    set_current_account t s = s ∧
    delete_account t s = s := by
  have hfind : find_index (fun p => p.1 = t) s.accounts = none :=
    find_index_none _ s.accounts (fun a ha => by simp [h a ha])
  refine ⟨rfl, ?_, ?_⟩
  · simp [set_current_account, hfind]
  · simp [delete_account, hfind]

theorem identity_parse_total_and_unknown_identity_noop_witness :
    identity_try_from [3] = Except.ok [3] ∧
    set_current_account [3] ⟨[], [], [], [([1], [2])], none⟩ =
      ⟨[], [], [], [([1], [2])], none⟩ ∧
    delete_account [3] ⟨[], [], [], [([1], [2])], none⟩ =
      ⟨[], [], [], [([1], [2])], none⟩ :=
  identity_parse_total_and_unknown_identity_noop [3] ⟨[], [], [], [([1], [2])], none⟩
    (by decide)

theorem writer_write_projections (sha : ShaFn) (g : String) (sm : SignedMessage)
    (ts : Nat) (s : Storage) :
    (writer_write sha g sm ts s).2.msgs = storePut s.msgs (g, sm.hash sha) sm ∧
    (writer_write sha g sm ts s).2.latest = storePut s.latest g (sm.hash sha) ∧
    (writer_write sha g sm ts s).2.groups =
      (if s.groups.any (fun g' => g'.id = g) then s.groups else s.groups ++ [⟨g, ts⟩]) ∧
    (writer_write sha g sm ts s).2.accounts = s.accounts ∧
    (writer_write sha g sm ts s).2.accidx = s.accidx := by
  by_cases hc : s.groups.any (fun g' => g'.id = g) = true
  · simp [writer_write, save_message, add_group, hc]
  · simp [writer_write, save_message, add_group, hc]

/-- C8: `write` is idempotent: running `write(g, sm)` twice in succession
(at any two wall-clock times) leaves the storage state — message entries,
tip pointer and group list with timestamps — equal to the state after the
first call. -/
theorem writer_write_idempotent (sha : ShaFn) (g : String) (sm : SignedMessage)
    (ts₁ ts₂ : Nat) (s : Storage) :
    (writer_write sha g sm ts₂ (writer_write sha g sm ts₁ s).2).2 =
      (writer_write sha g sm ts₁ s).2 := by
  by_cases hc : s.groups.any (fun g' => g'.id = g) = true
  · simp [writer_write, save_message, add_group, hc, storePut_storePut_self]
  · simp [writer_write, save_message, add_group, hc, storePut_storePut_self,
      List.any_append]

/-- C6: `is_valid_parent_of(p, c)` holds exactly when `H_sig(p)` equals
`c.message.previous_hash`, `p.seq + 1 = c.seq`, and `c`'s signature
verifies; and its result does not depend on whether `p`'s own signature
verifies: any two verifiers that agree on `c`'s signature give the same
answer, however they judge `p`. -/
theorem is_valid_parent_of_characterization (sha : ShaFn) (v₁ v₂ : VerifFn)
    (p c : SignedMessage)
    (h : v₁ c.signature c.id (c.message.to_hash sha)
       = v₂ c.signature c.id (c.message.to_hash sha)) :
    SignedMessage.is_valid_parent_of sha v₁ p c
      = SignedMessage.is_valid_parent_of sha v₂ p c ∧
    (SignedMessage.is_valid_parent_of sha v₁ p c = true ↔
      p.hash sha = c.message.previous_hash ∧ p.seq + 1 = c.seq ∧
        c.verify sha v₁ = true) := by
  constructor
  · simp [SignedMessage.is_valid_parent_of, SignedMessage.verify, h]
  · simp [SignedMessage.is_valid_parent_of, SignedMessage.verify, and_assoc]

theorem is_valid_parent_of_characterization_witness :
    (SignedMessage.is_valid_parent_of (fun _ => [5]) (fun _ _ _ => true)
        ⟨⟨ZERO_HASH, []⟩, [1], 0, [9]⟩ ⟨⟨[5], []⟩, [2], 1, [8]⟩
      = SignedMessage.is_valid_parent_of (fun _ => [5]) (fun _ i _ => i == [2])
        ⟨⟨ZERO_HASH, []⟩, [1], 0, [9]⟩ ⟨⟨[5], []⟩, [2], 1, [8]⟩) ∧
    (SignedMessage.is_valid_parent_of (fun _ => [5]) (fun _ _ _ => true)
        ⟨⟨ZERO_HASH, []⟩, [1], 0, [9]⟩ ⟨⟨[5], []⟩, [2], 1, [8]⟩ = true ↔
      SignedMessage.hash (fun _ => [5]) ⟨⟨ZERO_HASH, []⟩, [1], 0, [9]⟩ = [5] ∧
        0 + 1 = 1 ∧
        SignedMessage.verify (fun _ => [5]) (fun _ _ _ => true)
          ⟨⟨[5], []⟩, [2], 1, [8]⟩ = true) :=
  is_valid_parent_of_characterization (fun _ => [5]) (fun _ _ _ => true)
    (fun _ i _ => i == [2]) ⟨⟨ZERO_HASH, []⟩, [1], 0, [9]⟩ ⟨⟨[5], []⟩, [2], 1, [8]⟩
    (by decide)

/-- C5 counterexample: the claim quantifies over every account-registry
state, but on a state with a non-empty account list and a stored current
index past the end of the list, `initialize` does not return the current
account unchanged — `current_account()` is `None` there, so it creates and
appends a fresh account, modifying the registry. -/
theorem accInit_modifies_nonempty_registry :
    c5State.accounts ≠ [] ∧ (accInit ([9], [8]) c5State).2 ≠ c5State := by
  decide

/-- C5 (amended): `initialize` returns the current account with the state
unmodified whenever `current_account()` is `Some` (non-empty list and
in-range index); otherwise — empty list or out-of-range stored index — it
generates a fresh keypair, sets `current_index` to the pre-push list
length (0 for an empty list), appends the pair, persists, and returns it. -/
theorem accInit_spec (gen : List Nat × List Nat) (s : Storage) :
    (∀ p, current_account s = some p → accInit gen s = (p, s)) ∧
    (current_account s = none →
      accInit gen s = ((gen.2, gen.1),
        { s with accidx := some s.accounts.length,
                 accounts := s.accounts ++ [(gen.2, gen.1)] })) := by
  constructor
  · intro p hp
    simp [accInit, hp]
  · intro hn
    simp [accInit, hn, new_account]

theorem accInit_spec_witness :
    accInit ([9], [8]) emptyStorage =
      (([8], [9]), ⟨[], [], [], [([8], [9])], some 0⟩) :=
  (accInit_spec ([9], [8]) emptyStorage).2 rfl

/-- C1 failing input, evaluated: on a store whose only message for group
"g" has `seq = 1` with `previous_hash = ZERO_HASH` (stored under its own
hash, with the tip pointer on it and a verifying signature),
`validate_messages` terminates and returns `true`, while the spec §4.4
`verify_all` algorithm the claim describes returns `false` — the walk
stops at once (no parent is stored) and the message is not a root. -/
theorem validate_messages_accepts_nonroot_tip :
    validate_messages c1Sha c1Verif c1State "g" = some true ∧
    verifyAllSpec c1Sha c1Verif c1State "g" = false := by
  decide

/-- C2: `write_with_validation` admits a message exactly per the admission
predicate: it fails with "fail to validate message" iff the signature does
not verify; otherwise, with the expected pair taken from `latest`, it
fails with "wrong message sequence" iff the sequence mismatches, then with
"wrong previous hash" iff the previous hash mismatches; only when all
three checks pass does it persist, via `write`; and whenever it returns an
error the storage is unchanged. -/
theorem write_with_validation_admission (sha : ShaFn) (verif : VerifFn)
    (g : String) (sm : SignedMessage) (ts : Nat) (s : Storage) :
    ((write_with_validation sha verif g sm ts s).1
        = Except.error "fail to validate message" ↔
      sm.verify sha verif = false) ∧
    ((write_with_validation sha verif g sm ts s).1
        = Except.error "wrong message sequence" ↔
      sm.verify sha verif = true ∧ sm.seq ≠ (expected_pair s g).2) ∧
    ((write_with_validation sha verif g sm ts s).1
        = Except.error "wrong previous hash" ↔
      sm.verify sha verif = true ∧ sm.seq = (expected_pair s g).2 ∧
        sm.message.previous_hash ≠ (expected_pair s g).1) ∧
    (sm.verify sha verif = true ∧ sm.seq = (expected_pair s g).2 ∧
        sm.message.previous_hash = (expected_pair s g).1 →
      write_with_validation sha verif g sm ts s
        = (Except.ok ((writer_write sha g sm ts s).1),
           (writer_write sha g sm ts s).2)) ∧
    (∀ e, (write_with_validation sha verif g sm ts s).1 = Except.error e →
      (write_with_validation sha verif g sm ts s).2 = s) := by
  by_cases hv : sm.verify sha verif = true
  · by_cases h1 : sm.seq = (expected_pair s g).2
    · by_cases h2 : sm.message.previous_hash = (expected_pair s g).1
      · simp [write_with_validation, hv, h1, h2]
      · simp [write_with_validation, hv, h1, h2]
    · simp [write_with_validation, hv, h1]
  · have hv' : sm.verify sha verif = false := by
      simpa using hv
    simp [write_with_validation, hv', hv]

theorem write_with_validation_admission_witness :
    ((write_with_validation (fun _ => [5]) (fun _ _ _ => false) "g"
        ⟨⟨ZERO_HASH, []⟩, [1], 0, [9]⟩ 0 emptyStorage).1
      = Except.error "fail to validate message" ↔
      SignedMessage.verify (fun _ => [5]) (fun _ _ _ => false)
        ⟨⟨ZERO_HASH, []⟩, [1], 0, [9]⟩ = false) ∧
    (write_with_validation (fun _ => [5]) (fun _ _ _ => false) "g"
        ⟨⟨ZERO_HASH, []⟩, [1], 0, [9]⟩ 0 emptyStorage).2 = emptyStorage :=
  ⟨(write_with_validation_admission (fun _ => [5]) (fun _ _ _ => false) "g"
      ⟨⟨ZERO_HASH, []⟩, [1], 0, [9]⟩ 0 emptyStorage).1,
   (write_with_validation_admission (fun _ => [5]) (fun _ _ _ => false) "g"
      ⟨⟨ZERO_HASH, []⟩, [1], 0, [9]⟩ 0 emptyStorage).2.2.2.2
     "fail to validate message" (by rfl)⟩

/-- C7: the outcome of `write_with_validation` — the returned result and
the writes it makes to message entries, tip pointers and the group list —
is the same on any two states that agree on those persisted components but
differ arbitrarily in stored accounts and current-account index; and the
call never touches the account fields of either state. -/
theorem admission_independent_of_accounts (sha : ShaFn) (verif : VerifFn)
    (g : String) (sm : SignedMessage) (ts : Nat) (s₁ s₂ : Storage)
    (hm : s₁.msgs = s₂.msgs) (hl : s₁.latest = s₂.latest)
    (hg : s₁.groups = s₂.groups) :
    (write_with_validation sha verif g sm ts s₁).1
      = (write_with_validation sha verif g sm ts s₂).1 ∧
    (write_with_validation sha verif g sm ts s₁).2.msgs
      = (write_with_validation sha verif g sm ts s₂).2.msgs ∧
    (write_with_validation sha verif g sm ts s₁).2.latest
      = (write_with_validation sha verif g sm ts s₂).2.latest ∧
    (write_with_validation sha verif g sm ts s₁).2.groups
      = (write_with_validation sha verif g sm ts s₂).2.groups ∧
    (write_with_validation sha verif g sm ts s₁).2.accounts = s₁.accounts ∧
    (write_with_validation sha verif g sm ts s₁).2.accidx = s₁.accidx ∧
    (write_with_validation sha verif g sm ts s₂).2.accounts = s₂.accounts ∧
    (write_with_validation sha verif g sm ts s₂).2.accidx = s₂.accidx := by
  have hep : expected_pair s₁ g = expected_pair s₂ g := by
    simp [expected_pair, latest_message, latest_message_hash, msgGet, hm, hl]
  have hw := writer_write_projections sha g sm ts s₁
  have hw' := writer_write_projections sha g sm ts s₂
  by_cases hv : sm.verify sha verif = true
  · by_cases h1 : sm.seq = (expected_pair s₁ g).2
    · by_cases h2 : sm.message.previous_hash = (expected_pair s₁ g).1
      · have h1' : sm.seq = (expected_pair s₂ g).2 := by rw [← hep]; exact h1
        have h2' : sm.message.previous_hash = (expected_pair s₂ g).1 := by
          rw [← hep]; exact h2
        have e1 : write_with_validation sha verif g sm ts s₁
            = (Except.ok ((writer_write sha g sm ts s₁).1),
               (writer_write sha g sm ts s₁).2) := by
          simp [write_with_validation, hv, h1, h2]
        have e2 : write_with_validation sha verif g sm ts s₂
            = (Except.ok ((writer_write sha g sm ts s₂).1),
               (writer_write sha g sm ts s₂).2) := by
          simp [write_with_validation, hv, h1', h2']
        rw [e1, e2]
        refine ⟨rfl, ?_, ?_, ?_, ?_, ?_, ?_, ?_⟩
        · rw [hw.1, hw'.1, hm]
        · rw [hw.2.1, hw'.2.1, hl]
        · rw [hw.2.2.1, hw'.2.2.1, hg]
        · exact hw.2.2.2.1
        · exact hw.2.2.2.2
        · exact hw'.2.2.2.1
        · exact hw'.2.2.2.2
      · have h1' : sm.seq = (expected_pair s₂ g).2 := by rw [← hep]; exact h1
        have h2' : ¬ sm.message.previous_hash = (expected_pair s₂ g).1 := by
          rw [← hep]; exact h2
        simp [write_with_validation, hv, h1, h1', h2, h2', hm, hl, hg, hep]
    · have h1' : ¬ sm.seq = (expected_pair s₂ g).2 := by rw [← hep]; exact h1
      simp [write_with_validation, hv, h1, h1', hm, hl, hg, hep]
  · simp [write_with_validation, hv, hm, hl, hg]

theorem admission_independent_of_accounts_witness :
    (write_with_validation (fun _ => [4]) (fun _ _ _ => true) "g"
        ⟨⟨ZERO_HASH, []⟩, [1], 0, [9]⟩ 7 emptyStorage).1
      = (write_with_validation (fun _ => [4]) (fun _ _ _ => true) "g"
        ⟨⟨ZERO_HASH, []⟩, [1], 0, [9]⟩ 7 ⟨[], [], [], [([1], [2])], some 0⟩).1 :=
  (admission_independent_of_accounts (fun _ => [4]) (fun _ _ _ => true) "g"
    ⟨⟨ZERO_HASH, []⟩, [1], 0, [9]⟩ 7 emptyStorage ⟨[], [], [], [([1], [2])], some 0⟩
    rfl rfl rfl).1

theorem chainLinked_congr (sha : ShaFn) (verif : VerifFn)
    (lk lk' : Hash → Option SignedMessage) :
    ∀ c : List SignedMessage,
      (∀ m ∈ c, lk' (m.hash sha) = lk (m.hash sha)) →
      chainLinked sha verif lk c → chainLinked sha verif lk' c := by
  intro c
  induction c with
  | nil => intro _ _; trivial
  | cons m rest ih =>
    intro hag h
    cases rest with
    | nil =>
      simp only [chainLinked] at h ⊢
      exact ⟨h.1, h.2.1, by rw [hag m (by simp)]; exact h.2.2.1, h.2.2.2⟩
    | cons m' rest' =>
      simp only [chainLinked] at h ⊢
      refine ⟨h.1, h.2.1, by rw [hag m (by simp)]; exact h.2.2.1, h.2.2.2.1, ?_⟩
      exact ih (fun x hx => hag x (List.mem_cons_of_mem m hx)) h.2.2.2.2

theorem chainLinked_mem_lookup (sha : ShaFn) (verif : VerifFn)
    (lk : Hash → Option SignedMessage) :
    ∀ c : List SignedMessage, chainLinked sha verif lk c →
      ∀ m ∈ c, lk (m.hash sha) = some m := by
  intro c
  induction c with
  | nil => intro _ m hm; cases hm
  | cons m rest ih =>
    intro h x hx
    cases rest with
    | nil =>
      simp only [chainLinked] at h
      rcases List.mem_cons.mp hx with rfl | hx'
      · exact h.2.2.1
      · cases hx'
    | cons m' rest' =>
      simp only [chainLinked] at h
      rcases List.mem_cons.mp hx with rfl | hx'
      · exact h.2.2.1
      · exact ih h.2.2.2.2 x hx'

theorem chainLinked_seq_le (sha : ShaFn) (verif : VerifFn)
    (lk : Hash → Option SignedMessage) :
    ∀ (rest : List SignedMessage) (m : SignedMessage),
      chainLinked sha verif lk (m :: rest) →
      ∀ x ∈ m :: rest, x.seq ≤ m.seq := by
  intro rest
  induction rest with
  | nil =>
    intro m _ x hx
    rcases List.mem_cons.mp hx with rfl | hx'
    · exact le_refl _
    · cases hx'
  | cons m' rest' ih =>
    intro m h x hx
    simp only [chainLinked] at h
    rcases List.mem_cons.mp hx with rfl | hx'
    · exact le_refl _
    · have := ih m' h.2.2.2.2 x hx'
      omega

theorem chainLinked_length (sha : ShaFn) (verif : VerifFn)
    (lk : Hash → Option SignedMessage) :
    ∀ (rest : List SignedMessage) (m : SignedMessage),
      chainLinked sha verif lk (m :: rest) → m.seq + 1 = (m :: rest).length := by
  intro rest
  induction rest with
  | nil =>
    intro m h
    simp only [chainLinked] at h
    simp [h.1]
  | cons m' rest' ih =>
    intro m h
    simp only [chainLinked] at h
    have := ih m' h.2.2.2.2
    simp only [List.length_cons] at this ⊢
    omega

theorem chainLinked_getLast? (sha : ShaFn) (verif : VerifFn)
    (lk : Hash → Option SignedMessage) :
    ∀ (rest : List SignedMessage) (m : SignedMessage),
      chainLinked sha verif lk (m :: rest) →
      ∃ la, (m :: rest).getLast? = some la ∧
        la.message.previous_hash = ZERO_HASH := by
  intro rest
  induction rest with
  | nil =>
    intro m h
    simp only [chainLinked] at h
    exact ⟨m, rfl, h.2.1⟩
  | cons m' rest' ih =>
    intro m h
    simp only [chainLinked] at h
    obtain ⟨la, hla, hz⟩ := ih m' h.2.2.2.2
    exact ⟨la, by rw [List.getLast?_cons_cons]; exact hla, hz⟩

theorem chainLinked_zip_ivpo (sha : ShaFn) (verif : VerifFn)
    (lk : Hash → Option SignedMessage) :
    ∀ (rest : List SignedMessage) (m : SignedMessage),
      chainLinked sha verif lk (m :: rest) →
      ∀ q ∈ (m :: rest).zip rest,
        SignedMessage.is_valid_parent_of sha verif q.2 q.1 = true := by
  intro rest
  induction rest with
  | nil => intro m _ q hq; cases hq
  | cons m' rest' ih =>
    intro m h q hq
    simp only [chainLinked] at h
    simp only [List.zip_cons_cons] at hq
    rcases List.mem_cons.mp hq with rfl | hq'
    · simp [SignedMessage.is_valid_parent_of, h.2.1, h.1, h.2.2.2.1]
    · exact ih m' h.2.2.2.2 q hq'

theorem chainLinked_collectWalk (sha : ShaFn) (verif : VerifFn)
    (lk : Hash → Option SignedMessage) :
    ∀ (rest : List SignedMessage) (m : SignedMessage),
      chainLinked sha verif lk (m :: rest) →
      collectWalk lk (m :: rest).length (m.hash sha) = m :: rest := by
  intro rest
  induction rest with
  | nil =>
    intro m h
    simp only [chainLinked] at h
    simp [collectWalk, h.2.2.1]
  | cons m' rest' ih =>
    intro m h
    simp only [chainLinked] at h
    have hrec := ih m' h.2.2.2.2
    have hlen : (m :: m' :: rest').length = (m' :: rest').length + 1 := rfl
    rw [hlen]
    simp only [collectWalk, h.2.2.1, h.2.1]
    simp only [collectWalk] at hrec
    rw [hrec]

theorem goodChain_chainInvB (sha : ShaFn) (verif : VerifFn) (s : Storage)
    (g : String) (c : List SignedMessage) (hc : goodChain sha verif s g c) :
    chainInvB sha verif s g = true := by
  obtain ⟨hne, hlat, hlink, _, _⟩ := hc
  cases c with
  | nil => exact absurd rfl hne
  | cons m rest =>
    have hlat' : latest_message_hash s g = some (m.hash sha) := by
      simpa using hlat
    have hget : msgGet s g (m.hash sha) = some m :=
      chainLinked_mem_lookup sha verif _ _ hlink m (by simp)
    have hlm : latest_message s g = some (m.hash sha, m) := by
      simp [latest_message, hlat', hget]
    have hlen := chainLinked_length sha verif _ rest m hlink
    have hwalk := chainLinked_collectWalk sha verif _ rest m hlink
    obtain ⟨la, hla, hz⟩ := chainLinked_getLast? sha verif _ rest m hlink
    have hzip := chainLinked_zip_ivpo sha verif _ rest m hlink
    have hwalk' : collectWalk (fun h' => msgGet s g h') (m.seq + 1) (m.hash sha)
        = m :: rest := by
      rw [hlen]; exact hwalk
    simp only [chainInvB, hlm]
    rw [hwalk']
    simp only [Bool.and_eq_true, beq_iff_eq, List.all_eq_true]
    refine ⟨⟨⟨?_, ?_⟩, ?_⟩, trivial⟩
    · simpa using hlen.symm
    · simp [hla, hz]
    · intro q hq
      simp only [List.tail_cons] at hq
      exact hzip q hq

theorem msgGet_writer_write (sha : ShaFn) (g : String) (sm : SignedMessage)
    (ts : Nat) (s : Storage) (g' : String) (h' : Hash) :
    msgGet (writer_write sha g sm ts s).2 g' h'
      = if (g', h') = (g, sm.hash sha) then some sm else msgGet s g' h' := by
  have hw := (writer_write_projections sha g sm ts s).1
  simp only [msgGet, hw]
  by_cases hk : (g', h') = (g, sm.hash sha)
  · rw [if_pos hk, hk]
    exact storeGet_storePut_self _ _ _
  · rw [if_neg hk]
    exact storeGet_storePut_ne _ _ _ _ hk

theorem latest_writer_write (sha : ShaFn) (g : String) (sm : SignedMessage)
    (ts : Nat) (s : Storage) (g' : String) :
    latest_message_hash (writer_write sha g sm ts s).2 g'
      = if g' = g then some (sm.hash sha) else latest_message_hash s g' := by
  have hw := (writer_write_projections sha g sm ts s).2.1
  simp only [latest_message_hash, hw]
  by_cases hk : g' = g
  · rw [if_pos hk, hk]
    exact storeGet_storePut_self _ _ _
  · rw [if_neg hk]
    exact storeGet_storePut_ne _ _ _ _ hk

theorem inv_frame (sha : ShaFn) (verif : VerifFn) (s s' : Storage)
    (log : List SignedMessage) (hm : s'.msgs = s.msgs) (hl : s'.latest = s.latest)
    (hinv : Inv sha verif s log) : Inv sha verif s' log := by
  intro g
  have hlat : latest_message_hash s' g = latest_message_hash s g := by
    simp [latest_message_hash, hl]
  have hmg : (fun h => msgGet s' g h) = (fun h => msgGet s g h) := by
    funext h
    simp [msgGet, hm]
  rcases hinv g with hn | ⟨c, hc, hmem⟩
  · left
    rw [hlat]
    exact hn
  · right
    refine ⟨c, ⟨hc.1, ?_, ?_, hc.2.2.2.1, hc.2.2.2.2⟩, hmem⟩
    · rw [hlat]
      exact hc.2.1
    · rw [hmg]
      exact hc.2.2.1

theorem inv_log_mono (sha : ShaFn) (verif : VerifFn) (s : Storage)
    (log log' : List SignedMessage) (hsub : ∀ m ∈ log, m ∈ log')
    (hinv : Inv sha verif s log) : Inv sha verif s log' := by
  intro g
  rcases hinv g with hn | ⟨c, hc, hmem⟩
  · left
    exact hn
  · right
    exact ⟨c, hc, fun m hm => hsub m (hmem m hm)⟩

theorem inv_write (sha : ShaFn) (verif : VerifFn) (g : String) (sm : SignedMessage)
    (ts : Nat) (s : Storage) (log : List SignedMessage)
    (hinv : Inv sha verif s log)
    (hfr : ∀ m₁ ∈ log ++ [sm], ∀ m₂ ∈ log ++ [sm],
      m₁.hash sha = m₂.hash sha → m₁ = m₂)
    (hnz : ∀ m ∈ log ++ [sm], m.hash sha ≠ ZERO_HASH)
    (hver : sm.verify sha verif = true)
    (hadm : (latest_message s g = none ∧ sm.seq = 0 ∧
        sm.message.previous_hash = ZERO_HASH) ∨
      (∃ hh tip, latest_message s g = some (hh, tip) ∧ sm.seq = tip.seq + 1 ∧
        sm.message.previous_hash = hh)) :
    Inv sha verif (writer_write sha g sm ts s).2 (log ++ [sm]) := by
  have hsm_mem : sm ∈ log ++ [sm] := by simp
  intro g'
  by_cases hg : g' = g
  · subst hg
    right
    rcases hadm with ⟨hlm, hseq0, hprev0⟩ | ⟨hh, tip, hlm, hseq, hprev⟩
    · refine ⟨[sm], ⟨by simp, ?_, ?_, by simp, ?_⟩, ?_⟩
      · rw [latest_writer_write]
        simp
      · simp only [chainLinked]
        refine ⟨hseq0, hprev0, ?_, hver⟩
        rw [msgGet_writer_write]
        simp
      · intro m hm
        rw [List.mem_singleton] at hm
        rw [hm]
        exact hnz sm hsm_mem
      · intro m hm
        rw [List.mem_singleton] at hm
        rw [hm]
        exact hsm_mem
    · rcases hinv g' with hn | ⟨c, hc, hmem⟩
      · exfalso
        simp [latest_message, hn] at hlm
      · obtain ⟨hcne, hclat, hclink, hcnodup, hcnz⟩ := hc
        cases c with
        | nil => exact absurd rfl hcne
        | cons m₀ rest =>
          have hlat0 : latest_message_hash s g' = some (m₀.hash sha) := by
            simpa using hclat
          have hget0 : msgGet s g' (m₀.hash sha) = some m₀ :=
            chainLinked_mem_lookup sha verif _ _ hclink m₀ (by simp)
          have hlm' : latest_message s g' = some (m₀.hash sha, m₀) := by
            simp [latest_message, hlat0, hget0]
          rw [hlm] at hlm'
          have hpair : (hh, tip) = (m₀.hash sha, m₀) := Option.some.inj hlm'
          have hhh : hh = m₀.hash sha := congrArg Prod.fst hpair
          have htip : tip = m₀ := congrArg Prod.snd hpair
          have hseq' : sm.seq = m₀.seq + 1 := by rw [hseq, htip]
          have hprev' : sm.message.previous_hash = m₀.hash sha := by rw [hprev, hhh]
          have hfresh : ∀ x ∈ m₀ :: rest, x.hash sha ≠ sm.hash sha := by
            intro x hx heq
            have hxlog : x ∈ log ++ [sm] := List.mem_append_left _ (hmem x hx)
            have hx_eq : x = sm := hfr x hxlog sm hsm_mem heq
            have hle := chainLinked_seq_le sha verif _ rest m₀ hclink x hx
            rw [hx_eq, hseq'] at hle
            omega
          refine ⟨sm :: m₀ :: rest, ⟨by simp, ?_, ?_, ?_, ?_⟩, ?_⟩
          · rw [latest_writer_write]
            simp
          · simp only [chainLinked]
            refine ⟨hseq', hprev', ?_, hver, ?_⟩
            · rw [msgGet_writer_write]
              simp
            · refine chainLinked_congr sha verif (fun h => msgGet s g' h) _
                (m₀ :: rest) ?_ hclink
              intro x hx
              rw [msgGet_writer_write, if_neg]
              intro hcontra
              exact hfresh x hx (congrArg Prod.snd hcontra)
          · simp only [List.map_cons, List.nodup_cons]
            constructor
            · intro hmm
              rcases List.mem_cons.mp hmm with h0 | hrest
              · exact hfresh m₀ (by simp) h0.symm
              · obtain ⟨x, hx, hxeq⟩ := List.mem_map.mp hrest
                exact hfresh x (List.mem_cons_of_mem m₀ hx) hxeq
            · simpa using hcnodup
          · intro m hm
            rcases List.mem_cons.mp hm with hmeq | hm'
            · rw [hmeq]
              exact hnz sm hsm_mem
            · exact hcnz m hm'
          · intro m hm
            rcases List.mem_cons.mp hm with hmeq | hm'
            · rw [hmeq]
              exact hsm_mem
            · exact List.mem_append_left _ (hmem m hm')
  · rcases hinv g' with hn | ⟨c, hc, hmem⟩
    · left
      rw [latest_writer_write, if_neg hg]
      exact hn
    · right
      refine ⟨c, ⟨hc.1, ?_, ?_, hc.2.2.2.1, hc.2.2.2.2⟩,
        fun m hm => List.mem_append_left _ (hmem m hm)⟩
      · rw [latest_writer_write, if_neg hg]
        exact hc.2.1
      · refine chainLinked_congr sha verif (fun h => msgGet s g' h) _ c ?_ hc.2.2.1
        intro x hx
        rw [msgGet_writer_write, if_neg]
        intro hcontra
        exact hg (congrArg Prod.fst hcontra)

theorem accInit_projections (gen : List Nat × List Nat) (s : Storage) :
    (accInit gen s).2.msgs = s.msgs ∧ (accInit gen s).2.latest = s.latest := by
  cases hca : current_account s <;> simp [accInit, hca, new_account]

theorem new_account_projections (gen : List Nat × List Nat) (s : Storage) :
    (new_account gen s).2.msgs = s.msgs ∧ (new_account gen s).2.latest = s.latest := by
  simp [new_account]

theorem set_current_account_projections (t : List Nat) (s : Storage) :
    (set_current_account t s).msgs = s.msgs ∧
    (set_current_account t s).latest = s.latest := by
  cases hf : find_index (fun p => p.1 = t) s.accounts <;>
    simp [set_current_account, hf]

theorem delete_account_projections (t : List Nat) (s : Storage) :
    (delete_account t s).msgs = s.msgs ∧
    (delete_account t s).latest = s.latest := by
  cases hf : find_index (fun p => p.1 = t) s.accounts with
  | none => simp [delete_account, hf]
  | some idx =>
    simp only [delete_account, hf]
    split_ifs <;> simp

theorem inv_step (sha : ShaFn) (verif : VerifFn) (signFn : SignFn) (op : Op)
    (s : Storage) (log : List SignedMessage)
    (hsig : ∀ id sec m, verif (signFn id sec m) id (Message.to_hash sha m) = true)
    (hfr : ∀ m₁ ∈ log ++ opMsgs signFn op s, ∀ m₂ ∈ log ++ opMsgs signFn op s,
      m₁.hash sha = m₂.hash sha → m₁ = m₂)
    (hnz : ∀ m ∈ log ++ opMsgs signFn op s, m.hash sha ≠ ZERO_HASH)
    (hinv : Inv sha verif s log) :
    Inv sha verif (applyOp sha verif signFn op s) (log ++ opMsgs signFn op s) := by
  cases op with
  | initAccount gen =>
    have hp := accInit_projections gen s
    have := inv_frame sha verif s _ log hp.1 hp.2 hinv
    simpa [applyOp, opMsgs] using this
  | newAccount gen =>
    have hp := new_account_projections gen s
    have := inv_frame sha verif s _ log hp.1 hp.2 hinv
    simpa [applyOp, opMsgs] using this
  | setCurrentAccount t =>
    have hp := set_current_account_projections t s
    have := inv_frame sha verif s _ log hp.1 hp.2 hinv
    simpa [applyOp, opMsgs] using this
  | deleteAccount t =>
    have hp := delete_account_projections t s
    have := inv_frame sha verif s _ log hp.1 hp.2 hinv
    simpa [applyOp, opMsgs] using this
  | signMessage g data ts =>
    cases hs : signer_sign signFn g data s with
    | none =>
      simp only [applyOp, opMsgs, hs, List.append_nil]
      exact hinv
    | some sm =>
      simp only [opMsgs, hs] at hfr hnz
      simp only [applyOp, opMsgs, hs]
      obtain ⟨p, hca, hsm⟩ : ∃ p, current_account s = some p ∧
          sm = (match latest_message s g with
            | some (h, prev) => new_from_previous_message signFn p.1 p.2 data h prev
            | none => new_first_message signFn p.1 p.2 data) := by
        cases hca : current_account s with
        | none => simp [signer_sign, hca] at hs
        | some p =>
          refine ⟨p, rfl, ?_⟩
          have := hs
          simp only [signer_sign, hca, Option.map_some] at this
          exact (Option.some.inj this).symm
      cases hlm : latest_message s g with
      | none =>
        rw [hlm] at hsm
        have hsm' : sm = new_first_message signFn p.1 p.2 data := hsm
        have hver : sm.verify sha verif = true := by
          rw [hsm']
          exact hsig p.1 p.2 { previous_hash := ZERO_HASH, data := data }
        refine inv_write sha verif g sm ts s log hinv hfr hnz hver ?_
        exact Or.inl ⟨hlm, by rw [hsm']; rfl, by rw [hsm']; rfl⟩
      | some pr =>
        obtain ⟨hh, prev⟩ := pr
        rw [hlm] at hsm
        have hsm' : sm = new_from_previous_message signFn p.1 p.2 data hh prev := hsm
        have hver : sm.verify sha verif = true := by
          rw [hsm']
          exact hsig p.1 p.2 { previous_hash := hh, data := data }
        refine inv_write sha verif g sm ts s log hinv hfr hnz hver ?_
        exact Or.inr ⟨hh, prev, hlm, by rw [hsm']; rfl, by rw [hsm']; rfl⟩
  | addSignedMessage g sm ts =>
    simp only [opMsgs] at hfr hnz
    simp only [applyOp, opMsgs]
    have hmono : Inv sha verif s (log ++ [sm]) :=
      inv_log_mono sha verif s log (log ++ [sm])
        (fun m hm => List.mem_append_left _ hm) hinv
    by_cases hv : sm.verify sha verif = true
    · by_cases h1 : sm.seq = (expected_pair s g).2
      · by_cases h2 : sm.message.previous_hash = (expected_pair s g).1
        · have hst : (write_with_validation sha verif g sm ts s).2
              = (writer_write sha g sm ts s).2 := by
            simp [write_with_validation, hv, h1, h2]
          rw [hst]
          refine inv_write sha verif g sm ts s log hinv hfr hnz hv ?_
          cases hlm : latest_message s g with
          | none =>
            have hep : expected_pair s g = (ZERO_HASH, 0) := by
              simp [expected_pair, hlm]
            rw [hep] at h1 h2
            exact Or.inl ⟨rfl, h1, h2⟩
          | some pr =>
            obtain ⟨hh, tip⟩ := pr
            have hep : expected_pair s g = (hh, tip.seq + 1) := by
              simp [expected_pair, hlm]
            rw [hep] at h1 h2
            exact Or.inr ⟨hh, tip, rfl, h1, h2⟩
        · have hst : (write_with_validation sha verif g sm ts s).2 = s := by
            simp [write_with_validation, hv, h1, h2]
          rw [hst]
          exact hmono
      · have hst : (write_with_validation sha verif g sm ts s).2 = s := by
          simp [write_with_validation, hv, h1]
        rw [hst]
        exact hmono
    · have hst : (write_with_validation sha verif g sm ts s).2 = s := by
        simp [write_with_validation, hv]
      rw [hst]
      exact hmono

theorem runC_log_mono (sha : ShaFn) (verif : VerifFn) (signFn : SignFn) :
    ∀ (ops : List Op) (p : Storage × List SignedMessage) (m : SignedMessage),
      m ∈ p.2 → m ∈ (runC sha verif signFn ops p).2 := by
  intro ops
  induction ops with
  | nil => intro p m hm; exact hm
  | cons op rest ih =>
    intro p m hm
    exact ih _ m (List.mem_append_left _ hm)

theorem inv_run (sha : ShaFn) (verif : VerifFn) (signFn : SignFn)
    (hsig : ∀ id sec m, verif (signFn id sec m) id (Message.to_hash sha m) = true) :
    ∀ (ops : List Op) (p : Storage × List SignedMessage),
      Inv sha verif p.1 p.2 →
      (∀ m₁ ∈ (runC sha verif signFn ops p).2,
        ∀ m₂ ∈ (runC sha verif signFn ops p).2,
          m₁.hash sha = m₂.hash sha → m₁ = m₂) →
      (∀ m ∈ (runC sha verif signFn ops p).2, m.hash sha ≠ ZERO_HASH) →
      Inv sha verif (runC sha verif signFn ops p).1 (runC sha verif signFn ops p).2 := by
  intro ops
  induction ops with
  | nil => intro p hinv _ _; exact hinv
  | cons op rest ih =>
    intro p hinv hfr hnz
    refine ih (applyOp sha verif signFn op p.1, p.2 ++ opMsgs signFn op p.1) ?_ hfr hnz
    refine inv_step sha verif signFn op p.1 p.2 hsig ?_ ?_ hinv
    · intro m₁ h₁ m₂ h₂ heq
      exact hfr m₁ (runC_log_mono sha verif signFn rest _ m₁ h₁) m₂
        (runC_log_mono sha verif signFn rest _ m₂ h₂) heq
    · intro m hm
      exact hnz m (runC_log_mono sha verif signFn rest _ m hm)

/-- C3: starting from empty storage, after any sequence of facade
operations — with the crypto contract assumed (signatures the signer
produces verify) and the spec's standing collision-freedom assumption on
`H_sig` (distinct messages brought into play hash differently, and never
to the zero sentinel) — every group with a non-empty chain satisfies the
chain invariants: the walk from `latest_hash(g)` via `previous_hash`
traverses exactly `tip.seq + 1` stored messages ending at `ZERO_HASH`,
every adjacent pair satisfies `is_valid_parent_of`, and the stored latest
hash equals `H_sig(tip)`. -/
theorem chain_invariants_reachable (sha : ShaFn) (verif : VerifFn)
    (signFn : SignFn) (ops : List Op)
    (hsig : ∀ id sec m, verif (signFn id sec m) id (Message.to_hash sha m) = true)
    (hinj : ∀ m₁ ∈ (runC sha verif signFn ops (emptyStorage, [])).2,
      ∀ m₂ ∈ (runC sha verif signFn ops (emptyStorage, [])).2,
        m₁.hash sha = m₂.hash sha → m₁ = m₂)
    (hnz : ∀ m ∈ (runC sha verif signFn ops (emptyStorage, [])).2,
      m.hash sha ≠ ZERO_HASH)
    (g : String) :
    chainInvB sha verif (runC sha verif signFn ops (emptyStorage, [])).1 g = true := by
  have hinv0 : Inv sha verif emptyStorage [] := by
    intro g'
    left
    rfl
  have hfin := inv_run sha verif signFn hsig ops (emptyStorage, []) hinv0 hinj hnz
  rcases hfin g with hn | ⟨c, hc, _⟩
  · have hlm : latest_message (runC sha verif signFn ops (emptyStorage, [])).1 g
        = none := by
      simp [latest_message, hn]
    simp [chainInvB, hlm]
  · exact goodChain_chainInvB sha verif _ g c hc

theorem chain_invariants_reachable_witness :
    chainInvB (fun _ => [1]) (fun _ _ _ => true)
      (runC (fun _ => [1]) (fun _ _ _ => true) (fun _ _ _ => [9])
        [Op.initAccount ([1], [2]), Op.signMessage "g" [3] 5]
        (emptyStorage, [])).1 "g" = true :=
  chain_invariants_reachable (fun _ => [1]) (fun _ _ _ => true) (fun _ _ _ => [9])
    [Op.initAccount ([1], [2]), Op.signMessage "g" [3] 5]
    (fun _ _ _ => rfl) (by decide) (by decide) "g"

end WebMessage
